import Mathlib

/-!
Verification of the stream construction, fusion pass and countdown scheduler of
the rsbrain neural machine.

The definitions below are a shallow embedding of:
  * `src/src/neural_machine/streams/mod.rs`
      (`verify_machine_inputs`, `get_instruction_dependencies`,
       `assign_instructions_to_streams`, `make_streams`),
  * `src/src/neural_machine/neural_machine.rs`
      (`optimize_softmax_and_cross_entropy_loss`),
  * `src/src/neural_machine/streams/scheduler.rs`
      (`Scheduler::new`, `Scheduler::spawn`, `Scheduler::maybe_dispatch`,
       `Scheduler::step`).

Rust panics (out-of-bounds indexing, explicit panic calls) are modelled by
`Option`-valued functions returning `none`.  Machine integers (`usize`) are
modelled by `Nat`, and the scheduler's pending-dependency counters by `Int`
(a decrement of a zero counter does not produce zero again, matching the
wrap-around of an unsigned decrement which can never re-reach zero within
any feasible run).
-/

namespace RsBrain

/-- A simple instruction, as produced by `make_simple_instructions`:
the pair (input operand ids, output operand ids). -/
abbrev SimpleInstr := List Nat × List Nat

/-- The per-instruction dependency record (struct `Dependencies` in
`streams/mod.rs`). -/
structure Dependencies where
  write_before_read : List Nat
  write_before_write : List Nat
  read_before_write : List Nat
deriving Repr, DecidableEq

/-- Maker sure that no instruction writes to machine inputs
(`verify_machine_inputs` in `streams/mod.rs`).  The Rust function panics on
the first machine input found in some instruction's output list; we return
`true` exactly when the panic fires. -/
def verify_machine_inputs (machine_inputs : List Nat)
    (instructions : List SimpleInstr) : Bool :=
  machine_inputs.any (fun m => instructions.any (fun ins => ins.2.contains m))

/-- The backward scan `for j in (0..i).rev() { if p j { break } }`:
the first `j` below `i`, scanned in decreasing order, satisfying `p`. -/
def findPrior (i : Nat) (p : Nat → Bool) : Option Nat :=
  ((List.range i).reverse).find? p

/-- The nearest prior writer of operand `op` before instruction `i`. -/
def nearestPriorWriter (instructions : List SimpleInstr) (i op : Nat) : Option Nat :=
  findPrior i (fun j => (instructions.getD j ([], [])).2.contains op)

/-- The nearest prior reader of operand `op` before instruction `i`. -/
def nearestPriorReader (instructions : List SimpleInstr) (i op : Nat) : Option Nat :=
  findPrior i (fun j => (instructions.getD j ([], [])).1.contains op)

/-- The dependency record of instruction `i`
(the body of the loop of `get_instruction_dependencies`):
each input operand contributes its nearest prior writer (RAW),
each output operand its nearest prior writer (WAW) and
its nearest prior reader (WAR), scanned in operand-list order. -/
def dependenciesOfInstruction (instructions : List SimpleInstr) (i : Nat) :
    Dependencies :=
  { write_before_read :=
      (instructions.getD i ([], [])).1.filterMap (nearestPriorWriter instructions i)
  , write_before_write :=
      (instructions.getD i ([], [])).2.filterMap (nearestPriorWriter instructions i)
  , read_before_write :=
      (instructions.getD i ([], [])).2.filterMap (nearestPriorReader instructions i) }

/-- `get_instruction_dependencies` of `streams/mod.rs`. -/
def get_instruction_dependencies (instructions : List SimpleInstr) :
    List Dependencies :=
  (List.range instructions.length).map (dependenciesOfInstruction instructions)

/-- Sorted insertion of a value into a list, the auxiliary step of
`sortNat` below. -/
def insertSorted (a : Nat) : List Nat → List Nat
  | [] => [a]
  | b :: rest => if a ≤ b then a :: b :: rest else b :: insertSorted a rest

/-- Model of `Vec::sort` on a vector of `usize`: insertion sort.  On natural
numbers any comparison sort produces this same sorted list. -/
def sortNat (l : List Nat) : List Nat := l.foldr insertSorted []

/-- Model of `Vec::dedup`: remove consecutive repeated elements. -/
def dedupAdjacent : List Nat → List Nat
  | [] => []
  | [a] => [a]
  | a :: b :: rest =>
    if a == b then dedupAdjacent (b :: rest) else a :: dedupAdjacent (b :: rest)

/-- `.sort()` followed by `.dedup()`. -/
def sortDedup (l : List Nat) : List Nat := dedupAdjacent (sortNat l)

/-- The deduplicated dependency union used by `assign_instructions_to_streams`:
`vec![write_before_read, read_before_write, write_before_write].concat()`,
sorted and deduped. -/
def dependencyUnion (d : Dependencies) : List Nat :=
  sortDedup (d.write_before_read ++ d.read_before_write ++ d.write_before_write)

/-- The deduplicated dependency union used by the stream-dependency loop of
`make_streams`: `vec![read_before_write, write_before_read,
write_before_write].concat()`, sorted and deduped. -/
def dependencyUnionForStream (d : Dependencies) : List Nat :=
  sortDedup (d.read_before_write ++ d.write_before_read ++ d.write_before_write)

/-- The loop of `assign_instructions_to_streams`.  `assigned` holds the stream
ids of the already-processed instructions (the processed part of the Rust
`instruction_streams` vector, whose remaining slots hold the `no_stream`
marker), `next` is the Rust `next_stream` counter.  Reading an unassigned
slot (the `"Prior instruction has no assigned stream"` panic, or an
out-of-bounds index) yields `none`. -/
def assignGo : List Dependencies → List Nat → Nat → Option (List Nat)
  | [], assigned, _ => some assigned
  | d :: rest, assigned, next =>
    match dependencyUnion d with
    | [j] =>
      match assigned.get? j with
      | some s => assignGo rest (assigned ++ [s]) next
      | none => none
    | _ => assignGo rest (assigned ++ [next]) (next + 1)

/-- `assign_instructions_to_streams` of `streams/mod.rs`. -/
def assign_instructions_to_streams (ds : List Dependencies) : Option (List Nat) :=
  assignGo ds [] 0

/-- `iter().max()` on a list of `usize`. -/
def maxNat? : List Nat → Option Nat
  | [] => none
  | a :: rest =>
    some (match maxNat? rest with
          | none => a
          | some m => max a m)

/-- Stream state (`StreamState` in `streams/mod.rs`). -/
inductive StreamState where
  | Unreached
  | Spawned
  | Joined
deriving Repr, DecidableEq

/-- A stream (struct `Stream` in `streams/mod.rs`). -/
structure Stream where
  id : Nat
  state : StreamState
  dependencies : List Nat
  instructions : List Nat
deriving Repr, DecidableEq

/-- Effectful `map` over `Option`, collecting the first failure: the model of
a Rust loop that pushes the results of fallible (panicking) lookups. -/
def mapOption {α β : Type} (f : α → Option β) : List α → Option (List β)
  | [] => some []
  | a :: rest =>
    match f a, mapOption f rest with
    | some b, some bs => some (b :: bs)
    | _, _ => none

/-- The stream-dependency computation of `make_streams` for the stream whose
first instruction is `first`: the sorted deduplicated dependency union of
that instruction, each entry mapped to the stream id owning it
(`instruction_streams[*i]`, an out-of-bounds index modelled as `none`). -/
def streamDependencies (ds : List Dependencies) (instructionStreams : List Nat)
    (first : Nat) : Option (List Nat) :=
  mapOption (fun j => instructionStreams.get? j)
    (dependencyUnionForStream (ds.getD first ⟨[], [], []⟩))

/-- The stream count of `make_streams`: the maximum assigned stream id plus
one, or zero when there are no instructions. -/
def streamCountOf (r : List Nat) : Nat :=
  match maxNat? r with
  | some m => m + 1
  | none => 0

/-- Bucket `s` of the `stream_instructions` vector of `make_streams`: the
buckets are built by pushing each instruction index, in increasing order, to
the bucket of its assigned stream, so bucket `s` is the increasing list of
the instruction indices assigned to stream `s`. -/
def bucketOf (r : List Nat) (n s : Nat) : List Nat :=
  (List.range n).filter (fun i => r.getD i 0 == s)

/-- Construction of stream `s` in `make_streams`: its instruction bucket,
with the dependency list derived from the bucket's first instruction
(`stream_instructions[0]`; an empty bucket is an indexing panic, modelled as
`none`). -/
def buildStream (ds : List Dependencies) (r : List Nat) (n s : Nat) :
    Option Stream :=
  match (bucketOf r n s).head? with
  | none => none
  | some first =>
    (streamDependencies ds r first).map
      (fun deps =>
        { id := s
        , state := StreamState.Unreached
        , dependencies := deps
        , instructions := bucketOf r n s })

/-- `make_streams` of `streams/mod.rs`. -/
def make_streams (instructions : List SimpleInstr) : Option (List Stream) :=
  let ds := get_instruction_dependencies instructions
  match assign_instructions_to_streams ds with
  | none => none
  | some instructionStreams =>
    mapOption (buildStream ds instructionStreams instructions.length)
      (List.range (streamCountOf instructionStreams))

/-- An instruction of the neural machine, as observed by the fusion pass:
its operator name and its input/output operand ids. -/
structure Instruction where
  name : String
  inputs : List Nat
  outputs : List Nat
deriving Repr, DecidableEq

/-- The five-instruction fusion pattern of
`optimize_softmax_and_cross_entropy_loss`. -/
def isFusionPattern (a b c d e : Instruction) : Bool :=
  a.name == "CrossEntropyLossBackward" && b.name == "Clip" && c.name == "Clip" &&
    d.name == "SoftmaxBackward" && e.name == "Clip"

/-- `optimize_softmax_and_cross_entropy_loss` of `neural_machine.rs`.
When the window starting at the cursor matches the pattern, the five matched
instructions are emitted with the `SoftmaxBackward` instruction replaced by an
`IdentityBackward` instruction whose single input is input 1 of the
`SoftmaxBackward` instruction (an out-of-bounds `inputs()[1]` is modelled as
`none`) and whose outputs are those of the `SoftmaxBackward` instruction;
otherwise one instruction is copied through and the cursor advances by one.
With fewer than five instructions left, the remainder is copied through. -/
def optimize_softmax_and_cross_entropy_loss :
    List Instruction → Option (List Instruction)
  | a :: b :: c :: d :: e :: rest =>
    if isFusionPattern a b c d e then
      match d.inputs.get? 1 with
      | some g =>
        (optimize_softmax_and_cross_entropy_loss rest).map
          (fun r => a :: b :: c :: ⟨"IdentityBackward", [g], d.outputs⟩ :: e :: r)
      | none => none
    else
      (optimize_softmax_and_cross_entropy_loss (b :: c :: d :: e :: rest)).map
        (a :: ·)
  | l => some l

/-- Whether some window of five consecutive instructions matches the fusion
pattern. -/
def hasFusionMatch : List Instruction → Bool
  | a :: b :: c :: d :: e :: rest =>
    isFusionPattern a b c d e || hasFusionMatch (b :: c :: d :: e :: rest)
  | _ => false

/-- Scheduler state (`Scheduler` in `scheduler.rs`): the per-stream pending
dependency counters and the history of stream ids pushed to the dispatch
queue.  The `completed_streams` counter and the final `STOP` sentinel push
only terminate the loop and are not part of the dispatch history of stream
ids. -/
structure SchedulerState where
  pending : List Int
  dispatched : List Nat
deriving Repr, DecidableEq

/-- The reverse adjacency built by `Scheduler::new`: `dependents[d]` receives
one push of `t`, in increasing order of `t`, for each occurrence of `d` in
stream `t`'s dependencies list. -/
def dependentsOf (streams : List (List Nat)) : List (List Nat) :=
  (List.range streams.length).map (fun d =>
    (List.range streams.length).flatMap (fun t =>
      List.replicate ((streams.getD t []).count d) t))

/-- `self.pending_dependencies[*dependent] -= 1;` followed by
`self.maybe_dispatch(*dependent)`: decrement the counter, and push the stream
to the dispatch queue exactly when the counter is now zero. -/
def decrementAndMaybeDispatch (st : SchedulerState) (t : Nat) : SchedulerState :=
  let pending := st.pending.set t (st.pending.getD t 0 - 1)
  { pending := pending
  , dispatched :=
      if pending.getD t 0 == 0 then st.dispatched ++ [t] else st.dispatched }

/-- Processing one completion event in `Scheduler::step`: every dependent of
the completed stream is decremented and possibly dispatched, in the order
recorded in the dependents list. -/
def completeStream (dependents : List (List Nat)) (st : SchedulerState)
    (s : Nat) : SchedulerState :=
  (dependents.getD s []).foldl decrementAndMaybeDispatch st

/-- The state after `Scheduler::new` and the initial dispatch loop of
`Scheduler::spawn`: counters are the dependencies-list lengths, and every
stream whose counter is zero is dispatched, in increasing id order. -/
def schedulerStart (streams : List (List Nat)) : SchedulerState :=
  let pending := streams.map (fun d => (d.length : Int))
  { pending := pending
  , dispatched :=
      (List.range streams.length).filter (fun s => pending.getD s 0 == 0) }

/-- A whole scheduler run over a sequence of completion events. -/
def runScheduler (streams : List (List Nat)) (events : List Nat) :
    SchedulerState :=
  events.foldl (completeStream (dependentsOf streams)) (schedulerStart streams)

/-! ### Basic helper lemmas -/

theorem contains_iff_mem {l : List Nat} {a : Nat} :
    l.contains a = true ↔ a ∈ l := by
  simp [List.contains_eq_any_beq, List.any_eq_true]

theorem getD_range_map {α : Type} {f : Nat → α} {n i : Nat} (h : i < n) (d : α) :
    ((List.range n).map f).getD i d = f i := by
  simp [List.getD_eq_getElem?_getD, List.getElem?_map, List.getElem?_range h]

theorem getD_mem {l : List Nat} {i : Nat} (h : i < l.length) (d : Nat) :
    l.getD i d ∈ l := by
  rw [List.getD_eq_getElem?_getD, List.getElem?_eq_getElem h]
  exact List.getElem_mem h

/-- Characterization of the decreasing backward scan: it returns `j` exactly
when `j` is below `i`, satisfies the predicate, and no index strictly between
`j` and `i` satisfies it. -/
theorem findPrior_eq_some {p : Nat → Bool} {i j : Nat} :
    findPrior i p = some j ↔
      j < i ∧ p j = true ∧ ∀ k, j < k → k < i → p k = false := by
  induction i with
  | zero => simp [findPrior]
  | succ i ih =>
    have hrev : (List.range (i + 1)).reverse = i :: (List.range i).reverse := by
      rw [List.range_succ, List.reverse_append]
      simp
    unfold findPrior at *
    rw [hrev, List.find?_cons]
    cases hp : p i with
    | true =>
      simp only []
      constructor
      · intro h
        have hj : j = i := by
          have := h
          simp at this
          omega
        subst hj
        refine ⟨Nat.lt_succ_self _, hp, ?_⟩
        intro k hk1 hk2
        omega
      · rintro ⟨h1, h2, h3⟩
        by_cases hji : j = i
        · subst hji; rfl
        · exfalso
          have hj : j < i := by omega
          have := h3 i hj (Nat.lt_succ_self i)
          rw [hp] at this
          exact Bool.true_eq_false.mp this
    | false =>
      simp only []
      rw [ih]
      constructor
      · rintro ⟨h1, h2, h3⟩
        refine ⟨by omega, h2, ?_⟩
        intro k hk1 hk2
        by_cases hki : k = i
        · subst hki; exact hp
        · exact h3 k hk1 (by omega)
      · rintro ⟨h1, h2, h3⟩
        have hji : j ≠ i := by
          intro hji
          subst hji
          rw [hp] at h2
          exact Bool.false_eq_true.mp h2
        refine ⟨by omega, h2, ?_⟩
        intro k hk1 hk2
        exact h3 k hk1 (by omega)

/-! ### `mapOption` lemmas -/

theorem mapOption_length {α β : Type} {f : α → Option β} :
    ∀ {l : List α} {r : List β}, mapOption f l = some r → r.length = l.length := by
  intro l
  induction l with
  | nil => intro r h; simp [mapOption] at h; simp [← h]
  | cons a rest ih =>
    intro r h
    simp only [mapOption] at h
    cases hfa : f a with
    | none => rw [hfa] at h; simp at h
    | some b =>
      rw [hfa] at h
      cases hrest : mapOption f rest with
      | none => rw [hrest] at h; simp at h
      | some bs =>
        rw [hrest] at h
        simp at h
        subst h
        simp [ih hrest]

theorem mapOption_mem {α β : Type} {f : α → Option β} :
    ∀ {l : List α} {r : List β}, mapOption f l = some r → ∀ {b : β}, b ∈ r →
      ∃ a ∈ l, f a = some b := by
  intro l
  induction l with
  | nil =>
    intro r h b hb
    simp [mapOption] at h
    subst h
    simp at hb
  | cons a rest ih =>
    intro r h b hb
    simp only [mapOption] at h
    cases hfa : f a with
    | none => rw [hfa] at h; simp at h
    | some b0 =>
      rw [hfa] at h
      cases hrest : mapOption f rest with
      | none => rw [hrest] at h; simp at h
      | some bs =>
        rw [hrest] at h
        simp at h
        subst h
        rcases List.mem_cons.mp hb with hb0 | hbs
        · exact ⟨a, List.mem_cons_self a rest, by rw [hfa, hb0]⟩
        · rcases ih hrest hbs with ⟨a', ha', hfa'⟩
          exact ⟨a', List.mem_cons_of_mem a ha', hfa'⟩

theorem mapOption_getElem? {α β : Type} {f : α → Option β} :
    ∀ {l : List α} {r : List β}, mapOption f l = some r → ∀ {k : Nat},
      k < l.length → ∃ a b, l[k]? = some a ∧ r[k]? = some b ∧ f a = some b := by
  intro l
  induction l with
  | nil => intro r h k hk; simp at hk
  | cons a rest ih =>
    intro r h k hk
    simp only [mapOption] at h
    cases hfa : f a with
    | none => rw [hfa] at h; simp at h
    | some b0 =>
      rw [hfa] at h
      cases hrest : mapOption f rest with
      | none => rw [hrest] at h; simp at h
      | some bs =>
        rw [hrest] at h
        simp at h
        subst h
        cases k with
        | zero => exact ⟨a, b0, by simp, by simp, hfa⟩
        | succ k =>
          have hk' : k < rest.length := by simpa using hk
          rcases ih hrest hk' with ⟨a', b', h1, h2, h3⟩
          exact ⟨a', b', by simpa using h1, by simpa using h2, h3⟩

theorem mapOption_map_eq {α β γ : Type} {f : α → Option β} {g : β → γ} {h : α → γ} :
    ∀ {l : List α} {r : List β}, mapOption f l = some r →
      (∀ a b, f a = some b → g b = h a) → r.map g = l.map h := by
  intro l
  induction l with
  | nil => intro r hr _; simp [mapOption] at hr; simp [← hr]
  | cons a rest ih =>
    intro r hr hyp
    simp only [mapOption] at hr
    cases hfa : f a with
    | none => rw [hfa] at hr; simp at hr
    | some b0 =>
      rw [hfa] at hr
      cases hrest : mapOption f rest with
      | none => rw [hrest] at hr; simp at hr
      | some bs =>
        rw [hrest] at hr
        simp at hr
        subst hr
        simp [hyp a b0 hfa, ih hrest hyp]

/-! ### Sorting and deduplication lemmas -/

theorem mem_insertSorted {a x : Nat} :
    ∀ {l : List Nat}, x ∈ insertSorted a l ↔ x = a ∨ x ∈ l := by
  intro l
  induction l with
  | nil => simp [insertSorted]
  | cons b rest ih =>
    simp only [insertSorted]
    by_cases hab : a ≤ b
    · simp [hab]
    · simp only [hab, if_false, List.mem_cons, ih]
      tauto

theorem mem_sortNat {x : Nat} : ∀ {l : List Nat}, x ∈ sortNat l ↔ x ∈ l := by
  intro l
  induction l with
  | nil => simp [sortNat]
  | cons a rest ih =>
    simp only [sortNat, List.foldr_cons]
    rw [show List.foldr insertSorted [] rest = sortNat rest from rfl] at *
    rw [mem_insertSorted, ih]
    simp

theorem sorted_insertSorted {a : Nat} :
    ∀ {l : List Nat}, l.Sorted (· ≤ ·) → (insertSorted a l).Sorted (· ≤ ·) := by
  intro l
  induction l with
  | nil => intro _; simp [insertSorted]
  | cons b rest ih =>
    intro hs
    rw [List.sorted_cons] at hs
    simp only [insertSorted]
    by_cases hab : a ≤ b
    · simp only [hab, if_true]
      rw [List.sorted_cons]
      refine ⟨?_, by rw [List.sorted_cons]; exact hs⟩
      intro x hx
      rcases List.mem_cons.mp hx with h | h
      · subst h; exact hab
      · exact le_trans hab (hs.1 x h)
    · simp only [hab, if_false]
      rw [List.sorted_cons]
      refine ⟨?_, ih hs.2⟩
      intro x hx
      rcases mem_insertSorted.mp hx with h | h
      · subst h; omega
      · exact hs.1 x h

theorem sorted_sortNat : ∀ {l : List Nat}, (sortNat l).Sorted (· ≤ ·) := by
  intro l
  induction l with
  | nil => simp [sortNat]
  | cons a rest ih =>
    simp only [sortNat, List.foldr_cons]
    exact sorted_insertSorted ih

theorem mem_dedupAdjacent {x : Nat} :
    ∀ {l : List Nat}, x ∈ dedupAdjacent l ↔ x ∈ l := by
  intro l
  induction l with
  | nil => simp [dedupAdjacent]
  | cons a rest ih =>
    cases rest with
    | nil => simp [dedupAdjacent]
    | cons b rest' =>
      simp only [dedupAdjacent]
      by_cases hab : a = b
      · subst hab
        rw [if_pos (by simp)]
        rw [ih]
        simp
      · rw [if_neg (by simp [hab])]
        rw [List.mem_cons, ih]
        simp

theorem nodup_dedupAdjacent :
    ∀ {l : List Nat}, l.Sorted (· ≤ ·) → (dedupAdjacent l).Nodup := by
  intro l
  induction l with
  | nil => intro _; simp [dedupAdjacent]
  | cons a rest ih =>
    intro hs
    rw [List.sorted_cons] at hs
    cases rest with
    | nil => simp [dedupAdjacent]
    | cons b rest' =>
      simp only [dedupAdjacent]
      by_cases hab : a = b
      · subst hab
        rw [if_pos (by simp)]
        exact ih hs.2
      · rw [if_neg (by simp [hab])]
        rw [List.nodup_cons]
        refine ⟨?_, ih hs.2⟩
        intro hmem
        have hx : a ∈ b :: rest' := mem_dedupAdjacent.mp hmem
        have hle : a ≤ b := hs.1 b (List.mem_cons_self b rest')
        have hlt : a < b := lt_of_le_of_ne hle hab
        rcases List.mem_cons.mp hx with h | h
        · omega
        · have hble : b ≤ a := by
            have hsb := hs.2
            rw [List.sorted_cons] at hsb
            exact hsb.1 a h
          omega

theorem mem_sortDedup {x : Nat} {l : List Nat} : x ∈ sortDedup l ↔ x ∈ l := by
  rw [sortDedup, mem_dedupAdjacent, mem_sortNat]

theorem nodup_sortDedup {l : List Nat} : (sortDedup l).Nodup :=
  nodup_dedupAdjacent sorted_sortNat

/-! ### Claim C2: the dependency records of `get_instruction_dependencies` -/

/-- Modelled from the spec: `j` is the nearest prior writer of operand `op`
before instruction `i` — the largest `j < i` whose output list contains
`op`. -/
def IsNearestPriorWriter (instrs : List SimpleInstr) (i op j : Nat) : Prop :=
  j < i ∧ op ∈ (instrs.getD j ([], [])).2 ∧
    ∀ k, j < k → k < i → op ∉ (instrs.getD k ([], [])).2

/-- Modelled from the spec: `j` is the nearest prior reader of operand `op`
before instruction `i` — the largest `j < i` whose input list contains
`op`. -/
def IsNearestPriorReader (instrs : List SimpleInstr) (i op j : Nat) : Prop :=
  j < i ∧ op ∈ (instrs.getD j ([], [])).1 ∧
    ∀ k, j < k → k < i → op ∉ (instrs.getD k ([], [])).1

theorem nearestPriorWriter_eq_some {instrs : List SimpleInstr} {i op j : Nat} :
    nearestPriorWriter instrs i op = some j ↔ IsNearestPriorWriter instrs i op j := by
  rw [nearestPriorWriter, findPrior_eq_some, IsNearestPriorWriter]
  constructor
  · rintro ⟨h1, h2, h3⟩
    refine ⟨h1, contains_iff_mem.mp h2, ?_⟩
    intro k hk1 hk2 hmem
    have := h3 k hk1 hk2
    rw [contains_iff_mem.mpr hmem] at this
    exact Bool.true_eq_false.mp this
  · rintro ⟨h1, h2, h3⟩
    refine ⟨h1, contains_iff_mem.mpr h2, ?_⟩
    intro k hk1 hk2
    have := h3 k hk1 hk2
    by_contra hcon
    exact this (contains_iff_mem.mp (Bool.of_not_eq_false hcon))

theorem nearestPriorReader_eq_some {instrs : List SimpleInstr} {i op j : Nat} :
    nearestPriorReader instrs i op = some j ↔ IsNearestPriorReader instrs i op j := by
  rw [nearestPriorReader, findPrior_eq_some, IsNearestPriorReader]
  constructor
  · rintro ⟨h1, h2, h3⟩
    refine ⟨h1, contains_iff_mem.mp h2, ?_⟩
    intro k hk1 hk2 hmem
    have := h3 k hk1 hk2
    rw [contains_iff_mem.mpr hmem] at this
    exact Bool.true_eq_false.mp this
  · rintro ⟨h1, h2, h3⟩
    refine ⟨h1, contains_iff_mem.mpr h2, ?_⟩
    intro k hk1 hk2
    have := h3 k hk1 hk2
    by_contra hcon
    exact this (contains_iff_mem.mp (Bool.of_not_eq_false hcon))

theorem get_instruction_dependencies_getD {instrs : List SimpleInstr} {i : Nat}
    (h : i < instrs.length) :
    (get_instruction_dependencies instrs).getD i ⟨[], [], []⟩ =
      dependenciesOfInstruction instrs i := by
  rw [get_instruction_dependencies]
  exact getD_range_map h _

/-- C2: for every instruction list and every instruction index `i`, the
dependency record of instruction `i` contains, in `write_before_read`,
exactly the nearest prior writers of the operands `i` reads; in
`write_before_write`, exactly the nearest prior writers of the operands `i`
writes; in `read_before_write`, exactly the nearest prior readers of the
operands `i` writes; and no other entries.  In particular every recorded
index is strictly smaller than `i`, only the nearest prior writer/reader is
recorded per operand, and shared reads contribute no dependency. -/
theorem claim2_dependency_record (instrs : List SimpleInstr) (i : Nat)
    (h : i < instrs.length) (j : Nat) :
    (j ∈ ((get_instruction_dependencies instrs).getD i ⟨[], [], []⟩).write_before_read ↔
      ∃ op ∈ (instrs.getD i ([], [])).1, IsNearestPriorWriter instrs i op j) ∧
    (j ∈ ((get_instruction_dependencies instrs).getD i ⟨[], [], []⟩).write_before_write ↔
      ∃ op ∈ (instrs.getD i ([], [])).2, IsNearestPriorWriter instrs i op j) ∧
    (j ∈ ((get_instruction_dependencies instrs).getD i ⟨[], [], []⟩).read_before_write ↔
      ∃ op ∈ (instrs.getD i ([], [])).2, IsNearestPriorReader instrs i op j) := by
  rw [get_instruction_dependencies_getD h]
  unfold dependenciesOfInstruction
  refine ⟨?_, ?_, ?_⟩
  · simp only [List.mem_filterMap]
    constructor
    · rintro ⟨op, hop, heq⟩
      exact ⟨op, hop, nearestPriorWriter_eq_some.mp heq⟩
    · rintro ⟨op, hop, hspec⟩
      exact ⟨op, hop, nearestPriorWriter_eq_some.mpr hspec⟩
  · simp only [List.mem_filterMap]
    constructor
    · rintro ⟨op, hop, heq⟩
      exact ⟨op, hop, nearestPriorWriter_eq_some.mp heq⟩
    · rintro ⟨op, hop, hspec⟩
      exact ⟨op, hop, nearestPriorWriter_eq_some.mpr hspec⟩
  · simp only [List.mem_filterMap]
    constructor
    · rintro ⟨op, hop, heq⟩
      exact ⟨op, hop, nearestPriorReader_eq_some.mp heq⟩
    · rintro ⟨op, hop, hspec⟩
      exact ⟨op, hop, nearestPriorReader_eq_some.mpr hspec⟩

/-- Example instruction list of the spec's concrete scenario:
I0 writes operand 5, I1 reads 5 and writes 6, I2 reads 5 and writes 7. -/
def exScenario : List SimpleInstr := [([], [5]), ([5], [6]), ([5], [7])]

theorem claim2_witness :
    1 < exScenario.length ∧
    ((0 ∈ ((get_instruction_dependencies exScenario).getD 1 ⟨[], [], []⟩).write_before_read ↔
      ∃ op ∈ (exScenario.getD 1 ([], [])).1, IsNearestPriorWriter exScenario 1 op 0) ∧
    (0 ∈ ((get_instruction_dependencies exScenario).getD 1 ⟨[], [], []⟩).write_before_write ↔
      ∃ op ∈ (exScenario.getD 1 ([], [])).2, IsNearestPriorWriter exScenario 1 op 0) ∧
    (0 ∈ ((get_instruction_dependencies exScenario).getD 1 ⟨[], [], []⟩).read_before_write ↔
      ∃ op ∈ (exScenario.getD 1 ([], [])).2, IsNearestPriorReader exScenario 1 op 0)) :=
  ⟨by decide, claim2_dependency_record exScenario 1 (by decide) 0⟩

/-! ### Claim C9: `verify_machine_inputs` -/

/-- C9: `verify_machine_inputs` raises its fatal error exactly when some
declared machine-input operand appears in the output list of some
instruction; otherwise it returns normally before any instruction
executes. -/
theorem claim9_verify_machine_inputs (machine_inputs : List Nat)
    (instructions : List SimpleInstr) :
    verify_machine_inputs machine_inputs instructions = true ↔
      ∃ m ∈ machine_inputs, ∃ ins ∈ instructions, m ∈ ins.2 := by
  rw [verify_machine_inputs]
  simp only [List.any_eq_true]
  constructor
  · rintro ⟨m, hm, ins, hins, hc⟩
    exact ⟨m, hm, ins, hins, contains_iff_mem.mp hc⟩
  · rintro ⟨m, hm, ins, hins, hc⟩
    exact ⟨m, hm, ins, hins, contains_iff_mem.mpr hc⟩

/-! ### Claim C3: the stream-assignment rule -/

theorem getD_eq_of_get? {l : List Nat} {n x : Nat} (h : l.get? n = some x)
    (d : Nat) : l.getD n d = x := by
  rw [List.getD_eq_getElem?_getD, ← List.get?_eq_getElem?, h]
  rfl

theorem getD_concat_length {l : List Nat} {x : Nat} (d : Nat) :
    (l ++ [x]).getD l.length d = x :=
  getD_eq_of_get? (List.get?_concat_length l x) d

/-- Full characterization of the `assign_instructions_to_streams` loop,
generalized over the already-processed instructions `assigned` and the
`next_stream` counter: the result extends `assigned`; an instruction whose
deduplicated dependency union is a singleton `[j]` receives the stream id of
the (strictly earlier) instruction `j`; any other instruction receives a
stream id strictly greater than every previously assigned id. -/
theorem assignGo_spec :
    ∀ (ds : List Dependencies) (assigned : List Nat) (next : Nat) (r : List Nat),
      (∀ v ∈ assigned, v < next) →
      assignGo ds assigned next = some r →
      r.length = assigned.length + ds.length ∧
      (∀ m, m < assigned.length → r.getD m 0 = assigned.getD m 0) ∧
      (∀ v ∈ r, v < next + ds.length) ∧
      (∀ k, k < ds.length →
        (∀ j, dependencyUnion (ds.getD k ⟨[], [], []⟩) = [j] →
          j < assigned.length + k ∧
          r.getD (assigned.length + k) 0 = r.getD j 0) ∧
        ((¬ ∃ j, dependencyUnion (ds.getD k ⟨[], [], []⟩) = [j]) →
          ∀ m, m < assigned.length + k →
            r.getD m 0 < r.getD (assigned.length + k) 0)) := by
  intro ds
  induction ds with
  | nil =>
    intro assigned next r hinv h
    simp only [assignGo] at h
    have hr : assigned = r := by simpa using h
    subst hr
    refine ⟨by simp, fun m _ => rfl, ?_, ?_⟩
    · intro v hv
      have := hinv v hv
      omega
    · intro k hk
      simp at hk
  | cons d rest ih =>
    intro assigned next r hinv h
    simp only [assignGo] at h
    cases hu : dependencyUnion d with
    | cons j0 tail =>
      cases tail with
      | nil =>
        -- singleton dependency union: inherit the stream of instruction j0
        rw [hu] at h
        simp only [] at h
        cases hj : assigned.get? j0 with
        | none => rw [hj] at h; simp at h
        | some s =>
          rw [hj] at h
          simp only [] at h
          have hj0lt : j0 < assigned.length := by
            rcases List.get?_eq_some.mp hj with ⟨hlt, _⟩
            exact hlt
          have hsmem : s ∈ assigned := List.get?_mem hj
          have hinv' : ∀ v ∈ assigned ++ [s], v < next := by
            intro v hv
            rcases List.mem_append.mp hv with hva | hvs
            · exact hinv v hva
            · have hvv : v = s := by simpa using hvs
              rw [hvv]
              exact hinv s hsmem
          obtain ⟨hlen, hpre, hbound, hsteps⟩ := ih (assigned ++ [s]) next r hinv' h
          have hpre' : ∀ m, m < assigned.length → r.getD m 0 = assigned.getD m 0 := by
            intro m hm
            rw [hpre m (by simp; omega), List.getD_append _ _ _ _ hm]
          refine ⟨by simp at hlen ⊢; omega, hpre', ?_, ?_⟩
          · intro v hv
            have := hbound v hv
            simp at this ⊢
            omega
          · intro k hk
            cases k with
            | zero =>
              constructor
              · intro j hjeq
                rw [List.getD_cons_zero, hu] at hjeq
                have hjj : j = j0 := by
                  injection hjeq with h1 _
                  exact h1.symm
                rw [hjj]
                refine ⟨by omega, ?_⟩
                have h1 : r.getD (assigned.length + 0) 0 = s := by
                  have := hpre (assigned.length) (by simp)
                  rw [getD_concat_length] at this
                  simpa using this
                have h2 : r.getD j0 0 = s := by
                  rw [hpre' j0 hj0lt]
                  exact getD_eq_of_get? hj 0
                rw [h1, h2]
              · intro hne
                exact absurd ⟨j0, by simpa using hu⟩ hne
            | succ k =>
              have hk' : k < rest.length := by simpa using hk
              obtain ⟨hs1, hs2⟩ := hsteps k hk'
              have hidx : assigned.length + (k + 1) = (assigned ++ [s]).length + k := by
                simp
                omega
              constructor
              · intro j hjeq
                have := hs1 j (by simpa using hjeq)
                rw [hidx]
                exact ⟨by simp at this ⊢; omega, this.2⟩
              · intro hne m hm
                rw [hidx]
                exact hs2 (by simpa using hne) m (by simp at hm ⊢; omega)
      | cons j1 tail' =>
        -- two or more dependencies: open a brand-new stream
        rw [hu] at h
        simp only [] at h
        have hinv' : ∀ v ∈ assigned ++ [next], v < next + 1 := by
          intro v hv
          rcases List.mem_append.mp hv with hva | hvs
          · have := hinv v hva; omega
          · simp at hvs; omega
        obtain ⟨hlen, hpre, hbound, hsteps⟩ := ih (assigned ++ [next]) (next + 1) r hinv' h
        have hpre' : ∀ m, m < assigned.length → r.getD m 0 = assigned.getD m 0 := by
          intro m hm
          rw [hpre m (by simp; omega), List.getD_append _ _ _ _ hm]
        refine ⟨by simp at hlen ⊢; omega, hpre', ?_, ?_⟩
        · intro v hv
          have := hbound v hv
          simp at this ⊢
          omega
        · intro k hk
          cases k with
          | zero =>
            constructor
            · intro j hjeq
              rw [List.getD_cons_zero, hu] at hjeq
              simp at hjeq
            · intro _ m hm
              simp at hm
              have h1 : r.getD (assigned.length + 0) 0 = next := by
                have := hpre (assigned.length) (by simp)
                rw [getD_concat_length] at this
                simpa using this
              have h2 : r.getD m 0 = assigned.getD m 0 := hpre' m hm
              rw [h1, h2]
              exact hinv _ (getD_mem hm 0)
          | succ k =>
            have hk' : k < rest.length := by simpa using hk
            obtain ⟨hs1, hs2⟩ := hsteps k hk'
            have hidx : assigned.length + (k + 1) = (assigned ++ [next]).length + k := by
              simp
              omega
            constructor
            · intro j hjeq
              have := hs1 j (by simpa using hjeq)
              rw [hidx]
              exact ⟨by simp at this ⊢; omega, this.2⟩
            · intro hne m hm
              rw [hidx]
              exact hs2 (by simpa using hne) m (by simp at hm ⊢; omega)
    | nil =>
      -- empty dependency union: open a brand-new stream
      rw [hu] at h
      simp only [] at h
      have hinv' : ∀ v ∈ assigned ++ [next], v < next + 1 := by
        intro v hv
        rcases List.mem_append.mp hv with hva | hvs
        · have := hinv v hva; omega
        · simp at hvs; omega
      obtain ⟨hlen, hpre, hbound, hsteps⟩ := ih (assigned ++ [next]) (next + 1) r hinv' h
      have hpre' : ∀ m, m < assigned.length → r.getD m 0 = assigned.getD m 0 := by
        intro m hm
        rw [hpre m (by simp; omega), List.getD_append _ _ _ _ hm]
      refine ⟨by simp at hlen ⊢; omega, hpre', ?_, ?_⟩
      · intro v hv
        have := hbound v hv
        simp at this ⊢
        omega
      · intro k hk
        cases k with
        | zero =>
          constructor
          · intro j hjeq
            rw [List.getD_cons_zero, hu] at hjeq
            simp at hjeq
          · intro _ m hm
            simp at hm
            have h1 : r.getD (assigned.length + 0) 0 = next := by
              have := hpre (assigned.length) (by simp)
              rw [getD_concat_length] at this
              simpa using this
            have h2 : r.getD m 0 = assigned.getD m 0 := hpre' m hm
            rw [h1, h2]
            exact hinv _ (getD_mem hm 0)
        | succ k =>
          have hk' : k < rest.length := by simpa using hk
          obtain ⟨hs1, hs2⟩ := hsteps k hk'
          have hidx : assigned.length + (k + 1) = (assigned ++ [next]).length + k := by
            simp
            omega
          constructor
          · intro j hjeq
            have := hs1 j (by simpa using hjeq)
            rw [hidx]
            exact ⟨by simp at this ⊢; omega, this.2⟩
          · intro hne m hm
            rw [hidx]
            exact hs2 (by simpa using hne) m (by simp at hm ⊢; omega)

/-- C3: `assign_instructions_to_streams` assigns stream ids by the spec's
rule, processing instructions in order: an instruction whose deduplicated
dependency union is exactly `[j]` receives the stream id of instruction `j`;
any other instruction (empty union, or two or more dependencies) receives a
brand-new stream id never used before. -/
theorem claim3_assign_rule (ds : List Dependencies) (r : List Nat)
    (h : assign_instructions_to_streams ds = some r) :
    r.length = ds.length ∧
    ∀ i, i < ds.length →
      (∀ j, dependencyUnion (ds.getD i ⟨[], [], []⟩) = [j] →
        j < i ∧ r.getD i 0 = r.getD j 0) ∧
      ((¬ ∃ j, dependencyUnion (ds.getD i ⟨[], [], []⟩) = [j]) →
        ∀ m, m < i → r.getD m 0 ≠ r.getD i 0) := by
  obtain ⟨hlen, -, -, hsteps⟩ := assignGo_spec ds [] 0 r (by simp) h
  refine ⟨by simpa using hlen, ?_⟩
  intro i hi
  obtain ⟨h1, h2⟩ := hsteps i hi
  constructor
  · intro j hj
    simpa using h1 j hj
  · intro hne m hm
    have hlt := h2 hne m (by simpa using hm)
    have hzi : ([] : List Nat).length + i = i := by simp
    rw [hzi] at hlt
    exact Nat.ne_of_lt hlt

theorem claim3_witness :
    assign_instructions_to_streams (get_instruction_dependencies exScenario) =
      some [0, 0, 0] ∧
    (([0, 0, 0] : List Nat).length =
        (get_instruction_dependencies exScenario).length ∧
      ∀ i, i < (get_instruction_dependencies exScenario).length →
        (∀ j, dependencyUnion
            ((get_instruction_dependencies exScenario).getD i ⟨[], [], []⟩) = [j] →
          j < i ∧ ([0, 0, 0] : List Nat).getD i 0 = ([0, 0, 0] : List Nat).getD j 0) ∧
        ((¬ ∃ j, dependencyUnion
            ((get_instruction_dependencies exScenario).getD i ⟨[], [], []⟩) = [j]) →
          ∀ m, m < i →
            ([0, 0, 0] : List Nat).getD m 0 ≠ ([0, 0, 0] : List Nat).getD i 0)) :=
  ⟨by decide, claim3_assign_rule _ _ (by decide)⟩

/-- C1 counterexample: on the spec's concrete scenario the code does NOT
produce three distinct streams.  Instructions I1 and I2 each have the
singleton dependency union `{I0}`, so both inherit I0's stream: all three
instructions land in one single stream, and the result has 1 stream, not
3. -/
theorem claim1_counterexample :
    make_streams exScenario =
      some [⟨0, StreamState.Unreached, [], [0, 1, 2]⟩] ∧
    ((make_streams exScenario).getD []).length ≠ 3 := by
  constructor
  · decide
  · decide

/-- C1 as amended: the dependency records are as the claim states
(`dep(I1) = {I0}` and `dep(I2) = {I0}`), but `make_streams` places I0, I1
and I2 all in one single stream (stream 0, with instruction list
`[0, 1, 2]` and no stream dependencies), because each of I1 and I2 has a
singleton dependency union and therefore extends I0's stream. -/
theorem claim1_amended :
    ((get_instruction_dependencies exScenario).getD 1 ⟨[], [], []⟩).write_before_read
        = [0] ∧
    ((get_instruction_dependencies exScenario).getD 2 ⟨[], [], []⟩).write_before_read
        = [0] ∧
    dependencyUnion ((get_instruction_dependencies exScenario).getD 1 ⟨[], [], []⟩)
        = [0] ∧
    dependencyUnion ((get_instruction_dependencies exScenario).getD 2 ⟨[], [], []⟩)
        = [0] ∧
    make_streams exScenario =
      some [⟨0, StreamState.Unreached, [], [0, 1, 2]⟩] := by
  refine ⟨by decide, by decide, by decide, by decide, by decide⟩

/-! ### Structure of a successful `make_streams` run -/

theorem make_streams_eq {instrs : List SimpleInstr} {streams : List Stream}
    (h : make_streams instrs = some streams) :
    ∃ r, assign_instructions_to_streams (get_instruction_dependencies instrs) =
        some r ∧
      mapOption (buildStream (get_instruction_dependencies instrs) r instrs.length)
        (List.range (streamCountOf r)) = some streams := by
  unfold make_streams at h
  cases hassign : assign_instructions_to_streams (get_instruction_dependencies instrs) with
  | none =>
    simp only [hassign] at h
    exact absurd h (by simp)
  | some r =>
    simp only [hassign] at h
    exact ⟨r, rfl, h⟩

theorem buildStream_eq_some {ds : List Dependencies} {r : List Nat} {n s : Nat}
    {st : Stream} (h : buildStream ds r n s = some st) :
    ∃ first, (bucketOf r n s).head? = some first ∧
      streamDependencies ds r first = some st.dependencies ∧
      st.id = s ∧ st.state = StreamState.Unreached ∧
      st.instructions = bucketOf r n s := by
  unfold buildStream at h
  cases hfirst : (bucketOf r n s).head? with
  | none =>
    simp only [hfirst] at h
    exact absurd h (by simp)
  | some first =>
    simp only [hfirst] at h
    cases hdeps : streamDependencies ds r first with
    | none =>
      simp only [hdeps, Option.map_none'] at h
      exact absurd h (by simp)
    | some deps =>
      simp only [hdeps, Option.map_some'] at h
      cases Option.some.inj h
      exact ⟨first, rfl, hdeps, rfl, rfl, rfl⟩

theorem maxNat?_eq_none {l : List Nat} : maxNat? l = none ↔ l = [] := by
  cases l <;> simp [maxNat?]

theorem maxNat?_le {l : List Nat} :
    ∀ {m : Nat}, maxNat? l = some m → ∀ v ∈ l, v ≤ m := by
  induction l with
  | nil => intro m h; simp [maxNat?] at h
  | cons a rest ih =>
    intro m h v hv
    simp only [maxNat?] at h
    cases hrest : maxNat? rest with
    | none =>
      rw [hrest] at h
      simp at h
      have hr : rest = [] := maxNat?_eq_none.mp hrest
      subst hr
      simp at hv
      omega
    | some m' =>
      rw [hrest] at h
      simp at h
      rcases List.mem_cons.mp hv with hva | hvr
      · subst hva; omega
      · have := ih hrest v hvr
        omega

theorem getD_lt_streamCountOf {r : List Nat} {i : Nat} (h : i < r.length) :
    r.getD i 0 < streamCountOf r := by
  unfold streamCountOf
  cases hmax : maxNat? r with
  | none =>
    have : r = [] := maxNat?_eq_none.mp hmax
    subst this
    simp at h
  | some m =>
    have := maxNat?_le hmax _ (getD_mem h 0)
    show r.getD i 0 < m + 1
    omega

/-- The head of a filtered range is the least index satisfying the
predicate. -/
theorem head?_filter_range {p : Nat → Bool} :
    ∀ {n f : Nat}, ((List.range n).filter p).head? = some f →
      f < n ∧ p f = true ∧ ∀ m, m < f → p m = false := by
  intro n
  induction n with
  | zero => intro f h; simp at h
  | succ n ih =>
    intro f h
    rw [List.range_succ, List.filter_append] at h
    cases hfn : (List.range n).filter p with
    | nil =>
      rw [hfn] at h
      simp at h
      obtain ⟨hpn, hnf⟩ := h
      refine ⟨by omega, by rw [← hnf]; exact hpn, ?_⟩
      intro m hm
      have hmn : m < n := by omega
      have := List.filter_eq_nil_iff.mp hfn m (by simp [hmn])
      simpa using this
    | cons x xs =>
      rw [hfn] at h
      simp at h
      obtain ⟨hx, hp, hmin⟩ := ih (f := x) (by rw [hfn]; rfl)
      have hf : f = x := h.symm
      subst hf
      exact ⟨by omega, hp, hmin⟩

/-! ### Counting lemmas for the partition property -/

theorem count_filter_eq {p : Nat → Bool} {l : List Nat} {a : Nat} :
    (l.filter p).count a = if p a = true then l.count a else 0 := by
  by_cases hpa : p a = true
  · rw [if_pos hpa]
    exact List.count_filter hpa
  · rw [if_neg hpa]
    rw [List.count_eq_zero]
    intro hmem
    exact hpa (List.of_mem_filter hmem)

theorem count_range_eq {n a : Nat} :
    (List.range n).count a = if a < n then 1 else 0 := by
  induction n with
  | zero => simp
  | succ n ih =>
    rw [List.range_succ, List.count_append, ih]
    by_cases han : a = n
    · subst han
      simp
    · have h1 : List.count a [n] = 0 := by
        rw [List.count_eq_zero]
        simp
        omega
      rw [h1]
      by_cases hlt : a < n
      · rw [if_pos hlt, if_pos (by omega)]
      · rw [if_neg hlt, if_neg (by omega)]

theorem sum_if_single {c K v : Nat} :
    ((List.range c).map (fun s => if v = s then K else 0)).sum =
      if v < c then K else 0 := by
  induction c with
  | zero => simp
  | succ c ih =>
    rw [List.range_succ, List.map_append, List.sum_append, ih]
    by_cases hvc : v = c
    · subst hvc
      rw [if_neg (by omega), if_pos (by omega)]
      simp
    · by_cases hlt : v < c
      · rw [if_pos hlt, if_pos (by omega)]
        simp [hvc]
      · rw [if_neg hlt, if_neg (by omega)]
        simp [hvc]

/-- The buckets of the assignment vector partition the instruction
indices. -/
theorem join_buckets_perm {r : List Nat} {n c : Nat} (hlen : r.length = n)
    (hlt : ∀ i, i < n → r.getD i 0 < c) :
    (((List.range c).map (bucketOf r n)).flatten).Perm (List.range n) := by
  rw [List.perm_iff_count]
  intro a
  rw [List.count_flatten, List.map_map]
  have hmapeq : (List.map (List.count a ∘ bucketOf r n) (List.range c)) =
      (List.range c).map (fun s => if r.getD a 0 = s then
        (if a < n then 1 else 0) else 0) := by
    apply List.map_congr_left
    intro s _
    show (bucketOf r n s).count a = _
    rw [bucketOf, count_filter_eq]
    by_cases hras : r.getD a 0 = s
    · rw [if_pos (beq_iff_eq.mpr hras), if_pos hras, count_range_eq]
    · rw [if_neg (fun hc => hras (beq_iff_eq.mp hc)), if_neg hras]
  rw [hmapeq, sum_if_single, count_range_eq]
  by_cases han : a < n
  · rw [if_pos (hlt a han)]
  · have : (if a < n then 1 else 0) = 0 := if_neg han
    rw [this]
    simp

/-- C4: the streams returned by `make_streams` partition the instruction
indices — the multiset union of all streams' instruction lists contains
every index in `{0, ..., n-1}` exactly once. -/
theorem claim4_partition (instrs : List SimpleInstr) (streams : List Stream)
    (h : make_streams instrs = some streams) :
    ((streams.map Stream.instructions).flatten).Perm
      (List.range instrs.length) := by
  obtain ⟨r, hassign, hmap⟩ := make_streams_eq h
  obtain ⟨hlen, -, -, -⟩ := assignGo_spec _ [] 0 r (by simp) hassign
  have hrlen : r.length = instrs.length := by
    simp [get_instruction_dependencies] at hlen
    simpa using hlen
  have hmapeq : streams.map Stream.instructions =
      (List.range (streamCountOf r)).map (bucketOf r instrs.length) := by
    apply mapOption_map_eq hmap
    intro s st hst
    obtain ⟨first, -, -, -, -, hinstr⟩ := buildStream_eq_some hst
    exact hinstr
  rw [hmapeq]
  exact join_buckets_perm hrlen (fun i hi => getD_lt_streamCountOf (by omega))

theorem claim4_witness :
    make_streams exScenario = some [⟨0, StreamState.Unreached, [], [0, 1, 2]⟩] ∧
    (([⟨0, StreamState.Unreached, [], [0, 1, 2]⟩] : List Stream).map
        Stream.instructions).flatten.Perm (List.range exScenario.length) :=
  ⟨by decide, claim4_partition exScenario _ (by decide)⟩

/-! ### Claims C10 and C5: stream dependency lists -/

theorem get?_eq_some_getD {l : List Nat} {k : Nat} (h : k < l.length) :
    l.get? k = some (l.getD k 0) := by
  rw [List.get?_eq_getElem?, List.getElem?_eq_getElem h,
    List.getD_eq_getElem?_getD, List.getElem?_eq_getElem h]
  rfl

/-- Every entry of the stream-side dependency union of instruction `f` is a
strictly earlier instruction index. -/
theorem mem_dependencyUnionForStream_lt {instrs : List SimpleInstr} {f j : Nat}
    (h : j ∈ dependencyUnionForStream (dependenciesOfInstruction instrs f)) :
    j < f := by
  rw [dependencyUnionForStream, mem_sortDedup] at h
  rcases List.mem_append.mp h with h' | h3
  · rcases List.mem_append.mp h' with h1 | h2
    · obtain ⟨op, -, hop⟩ := List.mem_filterMap.mp h1
      exact (nearestPriorReader_eq_some.mp hop).1
    · obtain ⟨op, -, hop⟩ := List.mem_filterMap.mp h2
      exact (nearestPriorWriter_eq_some.mp hop).1
  · obtain ⟨op, -, hop⟩ := List.mem_filterMap.mp h3
    exact (nearestPriorWriter_eq_some.mp hop).1

/-- C10: the stream dependency graph is acyclic by construction — every
stream id in a stream's dependencies list is strictly smaller than the
stream's own id. -/
theorem claim10_acyclic (instrs : List SimpleInstr) (streams : List Stream)
    (h : make_streams instrs = some streams) :
    ∀ st ∈ streams, ∀ d ∈ st.dependencies, d < st.id := by
  obtain ⟨r, hassign, hmap⟩ := make_streams_eq h
  obtain ⟨hlen, -, -, hsteps⟩ := assignGo_spec _ [] 0 r (by simp) hassign
  have hdslen : (get_instruction_dependencies instrs).length = instrs.length := by
    simp [get_instruction_dependencies]
  intro st hst d hd
  obtain ⟨s, hsmem, hbuild⟩ := mapOption_mem hmap hst
  obtain ⟨first, hfirst, hdeps, hid, -, -⟩ := buildStream_eq_some hbuild
  obtain ⟨hfn, hpf, hmin⟩ := head?_filter_range hfirst
  have hrfs : r.getD first 0 = s := beq_iff_eq.mp hpf
  rw [streamDependencies] at hdeps
  obtain ⟨j, hjmem, hjget⟩ := mapOption_mem hdeps hd
  have hjlt : j < first := by
    rw [get_instruction_dependencies_getD hfn] at hjmem
    exact mem_dependencyUnionForStream_lt hjmem
  have hfirstlt : first < (get_instruction_dependencies instrs).length := by
    rw [hdslen]; exact hfn
  have hzl : ([] : List Nat).length + first = first := by simp
  have hfisnew : ¬ ∃ j', dependencyUnion
      ((get_instruction_dependencies instrs).getD first ⟨[], [], []⟩) = [j'] := by
    rintro ⟨j', hj'⟩
    obtain ⟨hj'lt, hj'eq⟩ := (hsteps first hfirstlt).1 j' hj'
    rw [hzl] at hj'lt hj'eq
    have htrue : (r.getD j' 0 == s) = true :=
      beq_iff_eq.mpr (by rw [← hj'eq]; exact hrfs)
    have hfalse := hmin j' hj'lt
    rw [htrue] at hfalse
    exact absurd hfalse (by simp)
  have hnonsig := (hsteps first hfirstlt).2 hfisnew j (by rw [hzl]; exact hjlt)
  rw [hzl] at hnonsig
  have hd_eq : r.getD j 0 = d := getD_eq_of_get? hjget 0
  rw [hid, ← hrfs, ← hd_eq]
  exact hnonsig

theorem claim10_witness :
    make_streams exScenario = some [⟨0, StreamState.Unreached, [], [0, 1, 2]⟩] ∧
    ∀ st ∈ ([⟨0, StreamState.Unreached, [], [0, 1, 2]⟩] : List Stream),
      ∀ d ∈ st.dependencies, d < st.id :=
  ⟨by decide, claim10_acyclic exScenario _ (by decide)⟩

/-- The stream owning instruction `j`, looked up in the output of
`make_streams`: the first stream whose instruction list contains `j`. -/
def ownerOf (streams : List Stream) (j : Nat) : Option Nat :=
  (streams.find? (fun st => st.instructions.contains j)).map Stream.id

theorem mapOption_congr {α β : Type} {f g : α → Option β} :
    ∀ {l : List α}, (∀ a ∈ l, f a = g a) → mapOption f l = mapOption g l := by
  intro l
  induction l with
  | nil => intro _; rfl
  | cons a rest ih =>
    intro hfg
    simp only [mapOption]
    rw [hfg a (List.mem_cons_self a rest),
      ih (fun x hx => hfg x (List.mem_cons_of_mem a hx))]

theorem find?_eq_of_getElem? {α : Type} {p : α → Bool} :
    ∀ {l : List α} {k : Nat} {b : α}, l[k]? = some b → p b = true →
      (∀ m, m < k → ∀ c, l[m]? = some c → p c = false) →
      l.find? p = some b := by
  intro l
  induction l with
  | nil => intro k b hk; simp at hk
  | cons a rest ih =>
    intro k b hk hb hbefore
    cases k with
    | zero =>
      simp at hk
      subst hk
      rw [List.find?_cons, hb]
    | succ k =>
      have hpa : p a = false := hbefore 0 (by omega) a (by simp)
      rw [List.find?_cons, hpa]
      exact ih (by simpa using hk) hb
        (fun m hm c hc => hbefore (m + 1) (by omega) c (by simpa using hc))

theorem mem_bucketOf {r : List Nat} {n s j : Nat} :
    j ∈ bucketOf r n s ↔ j < n ∧ r.getD j 0 = s := by
  rw [bucketOf, List.mem_filter, List.mem_range]
  constructor
  · rintro ⟨h1, h2⟩
    exact ⟨h1, beq_iff_eq.mp h2⟩
  · rintro ⟨h1, h2⟩
    exact ⟨h1, beq_iff_eq.mpr h2⟩

/-- In the output of `make_streams`, the first (and only) stream containing
instruction `j` is the stream with id `r.getD j 0`. -/
theorem ownerOf_eq {instrs : List SimpleInstr} {streams : List Stream}
    {r : List Nat} {j : Nat}
    (hmap : mapOption (buildStream (get_instruction_dependencies instrs) r
        instrs.length) (List.range (streamCountOf r)) = some streams)
    (hrlen : r.length = instrs.length) (hj : j < instrs.length) :
    ownerOf streams j = some (r.getD j 0) := by
  have hs0 : r.getD j 0 < streamCountOf r :=
    getD_lt_streamCountOf (by omega)
  have hcount : (List.range (streamCountOf r)).length = streamCountOf r := by
    simp
  have helt : ∀ k, k < streamCountOf r → ∃ st, streams[k]? = some st ∧
      st.id = k ∧ st.instructions = bucketOf r instrs.length k := by
    intro k hk
    obtain ⟨a, b, ha, hb, hf⟩ := mapOption_getElem? hmap (by rw [hcount]; exact hk)
    have hak : a = k := by
      rw [List.getElem?_range hk] at ha
      exact (Option.some.inj ha).symm
    subst hak
    obtain ⟨first, -, -, hbid, -, hbinstr⟩ := buildStream_eq_some hf
    exact ⟨b, hb, hbid, hbinstr⟩
  obtain ⟨st0, hst0, hst0id, hst0instr⟩ := helt (r.getD j 0) hs0
  have hp0 : (fun st => st.instructions.contains j) st0 = true := by
    show st0.instructions.contains j = true
    rw [hst0instr]
    exact contains_iff_mem.mpr (mem_bucketOf.mpr ⟨hj, rfl⟩)
  have hfind : streams.find? (fun st => st.instructions.contains j) = some st0 := by
    apply find?_eq_of_getElem? hst0 hp0
    intro m hm c hc
    obtain ⟨stm, hstm, hstmid, hstminstr⟩ := helt m (by omega)
    rw [hstm] at hc
    have hcm : c = stm := (Option.some.inj hc).symm
    subst hcm
    show c.instructions.contains j = false
    rw [hstminstr]
    by_contra hcon
    have hmem := contains_iff_mem.mp (Bool.of_not_eq_false hcon)
    have := (mem_bucketOf.mp hmem).2
    omega
  rw [ownerOf, hfind, Option.map_some', hst0id]

/-- C5 counterexample: the input `[([], [1]), ([1], [2]), ([1, 2], [3])]`
produces a stream (stream 1) whose dependencies list is `[0, 0]`: its first
instruction depends on instructions 0 and 1, which both belong to stream 0,
and the mapped stream ids are NOT deduplicated. -/
def exJoin : List SimpleInstr := [([], [1]), ([1], [2]), ([1, 2], [3])]

theorem claim5_counterexample :
    make_streams exJoin =
      some [⟨0, StreamState.Unreached, [], [0, 1]⟩,
            ⟨1, StreamState.Unreached, [0, 0], [2]⟩] ∧
    ¬ (((make_streams exJoin).getD []).getD 1
        ⟨0, StreamState.Unreached, [], []⟩).dependencies.Nodup := by
  constructor
  · decide
  · decide

/-- C5 as amended: every stream's dependencies list is obtained from the
sorted, deduplicated dependency union of the stream's first instruction —
a list without duplicate instruction indices — by mapping each index to the
id of the stream owning that instruction; the mapping is NOT deduplicated
afterwards, so the same stream id may appear more than once when two
dependency instructions share an owning stream. -/
theorem claim5_amended (instrs : List SimpleInstr) (streams : List Stream)
    (h : make_streams instrs = some streams) :
    ∀ st ∈ streams, ∃ f, st.instructions.head? = some f ∧
      (dependencyUnionForStream
        ((get_instruction_dependencies instrs).getD f ⟨[], [], []⟩)).Nodup ∧
      mapOption (ownerOf streams)
        (dependencyUnionForStream
          ((get_instruction_dependencies instrs).getD f ⟨[], [], []⟩)) =
        some st.dependencies := by
  obtain ⟨r, hassign, hmap⟩ := make_streams_eq h
  obtain ⟨hlen, -, -, -⟩ := assignGo_spec _ [] 0 r (by simp) hassign
  have hdslen : (get_instruction_dependencies instrs).length = instrs.length := by
    simp [get_instruction_dependencies]
  have hrlen : r.length = instrs.length := by
    rw [← hdslen]
    simpa using hlen
  intro st hst
  obtain ⟨s, hsmem, hbuild⟩ := mapOption_mem hmap hst
  obtain ⟨first, hfirst, hdeps, hid, -, hinstr⟩ := buildStream_eq_some hbuild
  obtain ⟨hfn, -, -⟩ := head?_filter_range hfirst
  refine ⟨first, by rw [hinstr]; exact hfirst, nodup_sortDedup, ?_⟩
  rw [streamDependencies] at hdeps
  rw [← hdeps]
  apply mapOption_congr
  intro j hjmem
  have hjlt : j < first := by
    rw [get_instruction_dependencies_getD hfn] at hjmem
    exact mem_dependencyUnionForStream_lt hjmem
  have hjn : j < instrs.length := by omega
  rw [ownerOf_eq hmap hrlen hjn]
  exact (get?_eq_some_getD (by omega)).symm

theorem claim5_witness :
    make_streams exJoin =
      some [⟨0, StreamState.Unreached, [], [0, 1]⟩,
            ⟨1, StreamState.Unreached, [0, 0], [2]⟩] ∧
    ∀ st ∈ ([⟨0, StreamState.Unreached, [], [0, 1]⟩,
             ⟨1, StreamState.Unreached, [0, 0], [2]⟩] : List Stream),
      ∃ f, st.instructions.head? = some f ∧
        (dependencyUnionForStream
          ((get_instruction_dependencies exJoin).getD f ⟨[], [], []⟩)).Nodup ∧
        mapOption (ownerOf [⟨0, StreamState.Unreached, [], [0, 1]⟩,
             ⟨1, StreamState.Unreached, [0, 0], [2]⟩])
          (dependencyUnionForStream
            ((get_instruction_dependencies exJoin).getD f ⟨[], [], []⟩)) =
          some st.dependencies :=
  ⟨by decide, claim5_amended exJoin _ (by decide)⟩

/-! ### Claims C6 and C7: the fusion pass -/

theorem optimize_catchall {l : List Instruction}
    (hshape : ∀ (a b c d e : Instruction) (rest : List Instruction),
      l = a :: b :: c :: d :: e :: rest → False) :
    optimize_softmax_and_cross_entropy_loss l = some l := by
  match l with
  | [] => rfl
  | [a] => rfl
  | [a, b] => rfl
  | [a, b, c] => rfl
  | [a, b, c, d] => rfl
  | a :: b :: c :: d :: e :: rest => exact (hshape a b c d e rest rfl).elim

theorem hasFusionMatch_catchall {l : List Instruction}
    (hshape : ∀ (a b c d e : Instruction) (rest : List Instruction),
      l = a :: b :: c :: d :: e :: rest → False) :
    hasFusionMatch l = false := by
  match l with
  | [] => rfl
  | [a] => rfl
  | [a, b] => rfl
  | [a, b, c] => rfl
  | [a, b, c, d] => rfl
  | a :: b :: c :: d :: e :: rest => exact (hshape a b c d e rest rfl).elim

theorem hasFusionMatch_cons {u : Instruction} {l : List Instruction}
    (hu : u.name ≠ "CrossEntropyLossBackward") (hl : hasFusionMatch l = false) :
    hasFusionMatch (u :: l) = false := by
  match l with
  | [] => rfl
  | [b] => rfl
  | [b, c] => rfl
  | [b, c, d] => rfl
  | b :: c :: d :: e :: rest =>
    show (isFusionPattern u b c d e || hasFusionMatch (b :: c :: d :: e :: rest))
        = false
    rw [hl, Bool.or_false]
    simp [isFusionPattern, hu]

theorem optimize_length :
    ∀ (x : List Instruction) {y : List Instruction},
      optimize_softmax_and_cross_entropy_loss x = some y →
        y.length = x.length := by
  intro x
  induction x using optimize_softmax_and_cross_entropy_loss.induct with
  | case1 a b c d e rest hpat g hget ih =>
    intro y h
    simp only [optimize_softmax_and_cross_entropy_loss, hpat, if_true, hget] at h
    cases hrest : optimize_softmax_and_cross_entropy_loss rest with
    | none => rw [hrest] at h; simp at h
    | some r' =>
      rw [hrest] at h
      simp at h
      rw [← h]
      simp [ih hrest]
  | case2 a b c d e rest hpat hget =>
    intro y h
    simp only [optimize_softmax_and_cross_entropy_loss, hpat, if_true, hget] at h
    exact absurd h (by simp)
  | case3 a b c d e rest hpat ih =>
    intro y h
    simp only [optimize_softmax_and_cross_entropy_loss] at h
    rw [if_neg hpat] at h
    cases hrec : optimize_softmax_and_cross_entropy_loss (b :: c :: d :: e :: rest) with
    | none => rw [hrec] at h; simp at h
    | some y' =>
      rw [hrec] at h
      simp at h
      rw [← h]
      simp [ih hrec]
  | case4 l hshape =>
    intro y h
    rw [optimize_catchall hshape] at h
    rw [← Option.some.inj h]

theorem optimize_head {x y : List Instruction}
    (h : optimize_softmax_and_cross_entropy_loss x = some y) :
    y.head? = x.head? := by
  match x with
  | [] => rw [optimize_catchall (by intro a b c d e rest hr; cases hr)] at h
          rw [← Option.some.inj h]
  | [a] => rw [optimize_catchall (by intro a' b c d e rest hr; cases hr)] at h
           rw [← Option.some.inj h]
  | [a, b] => rw [optimize_catchall (by intro a' b' c d e rest hr; cases hr)] at h
              rw [← Option.some.inj h]
  | [a, b, c] => rw [optimize_catchall (by intro a' b' c' d e rest hr; cases hr)] at h
                 rw [← Option.some.inj h]
  | [a, b, c, d] => rw [optimize_catchall (by intro a' b' c' d' e rest hr; cases hr)] at h
                    rw [← Option.some.inj h]
  | a :: b :: c :: d :: e :: rest =>
    simp only [optimize_softmax_and_cross_entropy_loss] at h
    by_cases hpat : isFusionPattern a b c d e = true
    · rw [if_pos hpat] at h
      cases hget : d.inputs.get? 1 with
      | none => rw [hget] at h; simp at h
      | some g =>
        rw [hget] at h
        cases hrest : optimize_softmax_and_cross_entropy_loss rest with
        | none => rw [hrest] at h; simp at h
        | some r' =>
          rw [hrest] at h
          simp at h
          rw [← h]
          rfl
    · rw [if_neg hpat] at h
      cases hrec : optimize_softmax_and_cross_entropy_loss (b :: c :: d :: e :: rest) with
      | none => rw [hrec] at h; simp at h
      | some y' =>
        rw [hrec] at h
        simp at h
        rw [← h]
        rfl

theorem optimize_cons_of_ne {a : Instruction} {t y : List Instruction}
    (ha : a.name ≠ "CrossEntropyLossBackward")
    (h : optimize_softmax_and_cross_entropy_loss (a :: t) = some y) :
    ∃ y', y = a :: y' ∧ optimize_softmax_and_cross_entropy_loss t = some y' := by
  match t with
  | [] => exact ⟨[], by rw [← Option.some.inj h], rfl⟩
  | [b] => exact ⟨[b], by rw [← Option.some.inj h], rfl⟩
  | [b, c] => exact ⟨[b, c], by rw [← Option.some.inj h], rfl⟩
  | [b, c, d] => exact ⟨[b, c, d], by rw [← Option.some.inj h], rfl⟩
  | b :: c :: d :: e :: rest =>
    simp only [optimize_softmax_and_cross_entropy_loss] at h
    have hpat : ¬ isFusionPattern a b c d e = true := by
      simp [isFusionPattern, ha]
    rw [if_neg hpat] at h
    cases hrec : optimize_softmax_and_cross_entropy_loss (b :: c :: d :: e :: rest) with
    | none => rw [hrec] at h; simp at h
    | some y' =>
      rw [hrec] at h
      simp at h
      exact ⟨y', h.symm, rfl⟩

theorem optimize_of_no_match :
    ∀ {x : List Instruction}, hasFusionMatch x = false →
      optimize_softmax_and_cross_entropy_loss x = some x := by
  intro x
  induction x using optimize_softmax_and_cross_entropy_loss.induct with
  | case1 a b c d e rest hpat g hget ih =>
    intro hm
    exfalso
    have hm' : (isFusionPattern a b c d e
        || hasFusionMatch (b :: c :: d :: e :: rest)) = false := hm
    rw [hpat] at hm'
    simp at hm'
  | case2 a b c d e rest hpat hget =>
    intro hm
    exfalso
    have hm' : (isFusionPattern a b c d e
        || hasFusionMatch (b :: c :: d :: e :: rest)) = false := hm
    rw [hpat] at hm'
    simp at hm'
  | case3 a b c d e rest hpat ih =>
    intro hm
    have hm' : (isFusionPattern a b c d e
        || hasFusionMatch (b :: c :: d :: e :: rest)) = false := hm
    rw [Bool.or_eq_false_iff] at hm'
    have htail := ih hm'.2
    simp only [optimize_softmax_and_cross_entropy_loss]
    rw [if_neg hpat, htail]
    rfl
  | case4 l hshape =>
    intro _
    exact optimize_catchall hshape

theorem isFusionPattern_names {a b c d e : Instruction}
    (h : isFusionPattern a b c d e = true) :
    a.name = "CrossEntropyLossBackward" ∧ b.name = "Clip" ∧ c.name = "Clip" ∧
      d.name = "SoftmaxBackward" ∧ e.name = "Clip" := by
  simp [isFusionPattern] at h
  tauto

theorem exists_cons1 {l : List Instruction} (h : 1 ≤ l.length) :
    ∃ x0 t, l = x0 :: t := by
  match l with
  | x0 :: t => exact ⟨x0, t, rfl⟩
  | [] => simp at h

theorem exists_cons2 {l : List Instruction} (h : 2 ≤ l.length) :
    ∃ x0 x1 t, l = x0 :: x1 :: t := by
  match l, h with
  | x0 :: x1 :: t, _ => exact ⟨x0, x1, t, rfl⟩
  | [], h => simp at h
  | [x0], h => simp at h

theorem exists_cons3 {l : List Instruction} (h : 3 ≤ l.length) :
    ∃ x0 x1 x2 t, l = x0 :: x1 :: x2 :: t := by
  match l, h with
  | x0 :: x1 :: x2 :: t, _ => exact ⟨x0, x1, x2, t, rfl⟩
  | [], h => simp at h
  | [x0], h => simp at h
  | [x0, x1], h => simp at h

theorem exists_cons4 {l : List Instruction} (h : 4 ≤ l.length) :
    ∃ x0 x1 x2 x3 t, l = x0 :: x1 :: x2 :: x3 :: t := by
  match l, h with
  | x0 :: x1 :: x2 :: x3 :: t, _ => exact ⟨x0, x1, x2, x3, t, rfl⟩
  | [], h => simp at h
  | [x0], h => simp at h
  | [x0, x1], h => simp at h
  | [x0, x1, x2], h => simp at h

/-- Key step of idempotence: the output of the fusion pass contains no
occurrence of the five-instruction pattern. -/
theorem optimize_no_match :
    ∀ {x : List Instruction} {y : List Instruction},
      optimize_softmax_and_cross_entropy_loss x = some y →
        hasFusionMatch y = false := by
  intro x
  induction x using optimize_softmax_and_cross_entropy_loss.induct with
  | case1 a b c d e rest hpat g hget ih =>
    intro y h
    simp only [optimize_softmax_and_cross_entropy_loss, hpat, if_true, hget] at h
    cases hrest : optimize_softmax_and_cross_entropy_loss rest with
    | none => rw [hrest] at h; simp at h
    | some r' =>
      rw [hrest] at h
      simp at h
      rw [← h]
      obtain ⟨-, hb, hc, -, he⟩ := isFusionPattern_names hpat
      have htail : hasFusionMatch
          (b :: c :: (⟨"IdentityBackward", [g], d.outputs⟩ : Instruction)
            :: e :: r') = false := by
        apply hasFusionMatch_cons (by rw [hb]; decide)
        apply hasFusionMatch_cons (by rw [hc]; decide)
        apply hasFusionMatch_cons
          (show ("IdentityBackward" : String) ≠ "CrossEntropyLossBackward" by decide)
        apply hasFusionMatch_cons (by rw [he]; decide)
        exact ih hrest
      show (isFusionPattern a b c ⟨"IdentityBackward", [g], d.outputs⟩ e
          || hasFusionMatch (b :: c :: ⟨"IdentityBackward", [g], d.outputs⟩
            :: e :: r')) = false
      rw [htail, Bool.or_false]
      simp [isFusionPattern]
  | case2 a b c d e rest hpat hget =>
    intro y h
    simp only [optimize_softmax_and_cross_entropy_loss, hpat, if_true, hget] at h
    exact absurd h (by simp)
  | case3 a b c d e rest hpat ih =>
    intro y h
    simp only [optimize_softmax_and_cross_entropy_loss] at h
    rw [if_neg hpat] at h
    cases hrec : optimize_softmax_and_cross_entropy_loss (b :: c :: d :: e :: rest) with
    | none => rw [hrec] at h; simp at h
    | some y' =>
      rw [hrec] at h
      simp at h
      rw [← h]
      have ihy : hasFusionMatch y' = false := ih hrec
      by_cases ha : a.name = "CrossEntropyLossBackward"
      · have hylen : y'.length = 4 + rest.length := by
          have := optimize_length _ hrec
          simp at this
          omega
        by_cases hb : b.name = "Clip"
        · by_cases hc : c.name = "Clip"
          · by_cases hd : d.name = "SoftmaxBackward"
            · -- b, c, d, e are all copied through; the window is the
              -- original pattern window, which does not match by hypothesis
              obtain ⟨z1, hy1, h1⟩ :=
                optimize_cons_of_ne (by rw [hb]; decide) hrec
              obtain ⟨z2, hy2, h2⟩ :=
                optimize_cons_of_ne (by rw [hc]; decide) h1
              obtain ⟨z3, hy3, h3⟩ :=
                optimize_cons_of_ne (by rw [hd]; decide) h2
              have hz3head : z3.head? = some e := optimize_head h3
              obtain ⟨e0, v, hv⟩ := exists_cons1 (l := z3) (by
                have hlz3 := optimize_length _ h3
                simp at hlz3
                omega)
              have he0 : e0 = e := by
                rw [hv] at hz3head
                simpa using hz3head
              have hy'eq : y' = b :: c :: d :: e :: v := by
                rw [hy1, hy2, hy3, hv, he0]
              rw [hy'eq] at ihy ⊢
              show (isFusionPattern a b c d e
                  || hasFusionMatch (b :: c :: d :: e :: v)) = false
              rw [ihy, Bool.or_false]
              exact Bool.of_not_eq_true hpat
            · -- the fourth window slot is d, which is not SoftmaxBackward
              obtain ⟨z1, hy1, h1⟩ :=
                optimize_cons_of_ne (by rw [hb]; decide) hrec
              obtain ⟨z2, hy2, h2⟩ :=
                optimize_cons_of_ne (by rw [hc]; decide) h1
              have hz2head : z2.head? = some d := optimize_head h2
              obtain ⟨d0, v0, v, hv⟩ := exists_cons2 (l := z2) (by
                have hl := optimize_length _ h2
                simp at hl
                omega)
              have hd0 : d0 = d := by
                rw [hv] at hz2head
                simpa using hz2head
              have hy'eq : y' = b :: c :: d :: v0 :: v := by
                rw [hy1, hy2, hv, hd0]
              rw [hy'eq] at ihy ⊢
              show (isFusionPattern a b c d v0
                  || hasFusionMatch (b :: c :: d :: v0 :: v)) = false
              rw [ihy, Bool.or_false]
              exact Bool.of_not_eq_true
                (fun hq => hd (isFusionPattern_names hq).2.2.2.1)
          · -- the third window slot is c, which is not Clip
            obtain ⟨z1, hy1, h1⟩ :=
              optimize_cons_of_ne (by rw [hb]; decide) hrec
            have hz1head : z1.head? = some c := optimize_head h1
            obtain ⟨c0, u0, u1, u, hu⟩ := exists_cons3 (l := z1) (by
              have hl := optimize_length _ h1
              simp at hl
              omega)
            have hc0 : c0 = c := by
              rw [hu] at hz1head
              simpa using hz1head
            have hy'eq : y' = b :: c :: u0 :: u1 :: u := by
              rw [hy1, hu, hc0]
            rw [hy'eq] at ihy ⊢
            show (isFusionPattern a b c u0 u1
                || hasFusionMatch (b :: c :: u0 :: u1 :: u)) = false
            rw [ihy, Bool.or_false]
            exact Bool.of_not_eq_true
              (fun hq => hc (isFusionPattern_names hq).2.2.1)
        · -- the second window slot is b, which is not Clip
          have hyhead : y'.head? = some b := optimize_head hrec
          obtain ⟨b0, u0, u1, u2, u, hu⟩ := exists_cons4 (l := y') (by omega)
          have hb0 : b0 = b := by
            rw [hu] at hyhead
            simpa using hyhead
          rw [hu, hb0] at ihy ⊢
          show (isFusionPattern a b u0 u1 u2
              || hasFusionMatch (b :: u0 :: u1 :: u2 :: u)) = false
          rw [ihy, Bool.or_false]
          exact Bool.of_not_eq_true
            (fun hq => hb (isFusionPattern_names hq).2.1)
      · exact hasFusionMatch_cons ha ihy
  | case4 l hshape =>
    intro y h
    rw [optimize_catchall hshape] at h
    rw [← Option.some.inj h]
    exact hasFusionMatch_catchall hshape

/-- C6: the fusion pass is idempotent — applied to its own output it returns
that output unchanged, because an already-fused list contains no further
occurrence of the five-instruction pattern. -/
theorem claim6_fusion_idempotent (x y : List Instruction)
    (h : optimize_softmax_and_cross_entropy_loss x = some y) :
    optimize_softmax_and_cross_entropy_loss y = some y :=
  optimize_of_no_match (optimize_no_match h)

/-- A five-instruction list matching the fusion pattern. -/
def exFusionInput : List Instruction :=
  [⟨"CrossEntropyLossBackward", [1, 2], [3]⟩, ⟨"Clip", [3], [3]⟩,
   ⟨"Clip", [4], [4]⟩, ⟨"SoftmaxBackward", [9, 8], [7]⟩, ⟨"Clip", [7], [7]⟩]

/-- The fused form of `exFusionInput`: same length, with the
`SoftmaxBackward` instruction replaced in place by an `IdentityBackward`
instruction. -/
def exFusionOutput : List Instruction :=
  [⟨"CrossEntropyLossBackward", [1, 2], [3]⟩, ⟨"Clip", [3], [3]⟩,
   ⟨"Clip", [4], [4]⟩, ⟨"IdentityBackward", [8], [7]⟩, ⟨"Clip", [7], [7]⟩]

theorem claim6_witness :
    optimize_softmax_and_cross_entropy_loss exFusionInput = some exFusionOutput ∧
    optimize_softmax_and_cross_entropy_loss exFusionOutput = some exFusionOutput :=
  ⟨by decide, claim6_fusion_idempotent exFusionInput exFusionOutput (by decide)⟩

/-- C7 counterexample: an instruction list containing the five-instruction
pattern whose fused output is NOT strictly shorter — the pass emits exactly
five instructions for the five matched ones (the `SoftmaxBackward`
instruction is replaced in place by an `IdentityBackward` instruction), so
the output has the same length as the input. -/
theorem claim7_counterexample :
    hasFusionMatch exFusionInput = true ∧
    optimize_softmax_and_cross_entropy_loss exFusionInput = some exFusionOutput ∧
    exFusionOutput.length = exFusionInput.length ∧
    ¬ exFusionOutput.length < exFusionInput.length := by
  refine ⟨by decide, by decide, by decide, by decide⟩

/-- C7 as amended: the fusion pass preserves the instruction count exactly —
for every input on which it succeeds the output has the same length as the
input (a matched pattern window is rewritten in place, not shortened), and
an input with no occurrence of the pattern is returned unchanged. -/
theorem claim7_amended (x y : List Instruction)
    (h : optimize_softmax_and_cross_entropy_loss x = some y) :
    y.length = x.length ∧ (hasFusionMatch x = false → y = x) := by
  refine ⟨optimize_length x h, ?_⟩
  intro hm
  rw [optimize_of_no_match hm] at h
  exact (Option.some.inj h).symm

theorem claim7_witness :
    optimize_softmax_and_cross_entropy_loss exFusionInput = some exFusionOutput ∧
    (exFusionOutput.length = exFusionInput.length ∧
      (hasFusionMatch exFusionInput = false → exFusionOutput = exFusionInput)) :=
  ⟨by decide, claim7_amended exFusionInput exFusionOutput (by decide)⟩

/-! ### Claim C8: the scheduler never re-dispatches a stream -/

theorem getD_set_self {l : List Int} {u : Nat} {v : Int} (h : u < l.length)
    (d : Int) : (l.set u v).getD u d = v := by
  rw [List.getD_eq_getElem?_getD, List.getElem?_set_self',
    List.getElem?_eq_getElem h]
  rfl

theorem getD_set_ne {l : List Int} {u t : Nat} {v : Int} (h : u ≠ t)
    (d : Int) : (l.set u v).getD t d = l.getD t d := by
  rw [List.getD_eq_getElem?_getD, List.getElem?_set_ne h,
    ← List.getD_eq_getElem?_getD]

theorem count_append_singleton {l : List Nat} {u t : Nat} :
    (l ++ [u]).count t = l.count t + if u = t then 1 else 0 := by
  rw [List.count_append]
  by_cases hut : u = t
  · subst hut
    rw [if_pos rfl]
    congr 1
    simp
  · rw [if_neg hut]
    have hz : List.count t [u] = 0 := by
      rw [List.count_eq_zero]
      intro hmem
      have htu : t = u := by simpa using hmem
      exact hut htu.symm
    rw [hz]

/-- The dispatch invariant: a stream has been pushed to the dispatch queue
exactly once if its pending counter has reached zero (or below), and not at
all while the counter is still positive; ids outside the graph are never
dispatched. -/
def DispatchInv (n : Nat) (st : SchedulerState) : Prop :=
  st.pending.length = n ∧
  (∀ t, t < n →
    (st.dispatched.count t = 0 ∧ 0 < st.pending.getD t 0) ∨
    (st.dispatched.count t = 1 ∧ st.pending.getD t 0 ≤ 0)) ∧
  (∀ t, n ≤ t → st.dispatched.count t = 0)

theorem decrement_inv {n : Nat} {st : SchedulerState} {u : Nat} (hu : u < n)
    (h : DispatchInv n st) :
    DispatchInv n (decrementAndMaybeDispatch st u) := by
  obtain ⟨hplen, hmid, hhigh⟩ := h
  have hulen : u < st.pending.length := by omega
  simp only [decrementAndMaybeDispatch]
  have hpu : (st.pending.set u (st.pending.getD u 0 - 1)).getD u 0 =
      st.pending.getD u 0 - 1 := getD_set_self hulen 0
  refine ⟨by rw [List.length_set]; exact hplen, ?_, ?_⟩
  · intro t ht
    by_cases htu : t = u
    · subst htu
      rw [hpu]
      by_cases hzero : st.pending.getD t 0 - 1 = 0
      · rw [if_pos (by rw [hzero]; decide)]
        rcases hmid t ht with ⟨c0, hpos⟩ | ⟨c1, hle⟩
        · right
          refine ⟨?_, by omega⟩
          rw [count_append_singleton, c0, if_pos rfl]
        · exfalso
          omega
      · rw [if_neg (fun hc => hzero (beq_iff_eq.mp hc))]
        rcases hmid t ht with ⟨c0, hpos⟩ | ⟨c1, hle⟩
        · left
          exact ⟨c0, by omega⟩
        · right
          exact ⟨c1, by omega⟩
    · have hpt : (st.pending.set u (st.pending.getD u 0 - 1)).getD t 0 =
          st.pending.getD t 0 := getD_set_ne (fun hc => htu hc.symm) 0
      rw [hpt]
      by_cases hcond : ((st.pending.set u (st.pending.getD u 0 - 1)).getD u 0
          == (0 : Int)) = true
      · rw [if_pos hcond]
        rcases hmid t ht with ⟨c0, hpos⟩ | ⟨c1, hle⟩
        · left
          refine ⟨?_, hpos⟩
          rw [count_append_singleton, c0, if_neg (fun hc => htu hc.symm)]
        · right
          refine ⟨?_, hle⟩
          rw [count_append_singleton, c1, if_neg (fun hc => htu hc.symm)]
      · rw [if_neg hcond]
        exact hmid t ht
  · intro t htn
    have htu : u ≠ t := by omega
    by_cases hcond : ((st.pending.set u (st.pending.getD u 0 - 1)).getD u 0
        == (0 : Int)) = true
    · rw [if_pos hcond, count_append_singleton, hhigh t htn, if_neg htu]
    · rw [if_neg hcond]
      exact hhigh t htn

theorem foldl_decrement_inv {n : Nat} :
    ∀ (L : List Nat) (st : SchedulerState), (∀ x ∈ L, x < n) →
      DispatchInv n st →
      DispatchInv n (L.foldl decrementAndMaybeDispatch st) := by
  intro L
  induction L with
  | nil => intro st _ h; exact h
  | cons u L' ih =>
    intro st hL h
    rw [List.foldl_cons]
    exact ih _ (fun x hx => hL x (List.mem_cons_of_mem u hx))
      (decrement_inv (hL u (List.mem_cons_self u L')) h)

theorem dependentsOf_mem_lt {streams : List (List Nat)} {s x : Nat}
    (h : x ∈ (dependentsOf streams).getD s []) : x < streams.length := by
  by_cases hs : s < streams.length
  · rw [dependentsOf, getD_range_map hs] at h
    obtain ⟨t, ht, hx⟩ := List.mem_flatMap.mp h
    rw [List.eq_of_mem_replicate hx]
    exact List.mem_range.mp ht
  · rw [List.getD_eq_getElem?_getD, List.getElem?_eq_none (by
      rw [dependentsOf]
      simp
      omega)] at h
    simp at h

theorem completeStream_inv {streams : List (List Nat)} {st : SchedulerState}
    {s : Nat} (h : DispatchInv streams.length st) :
    DispatchInv streams.length (completeStream (dependentsOf streams) st s) :=
  foldl_decrement_inv _ st (fun _ hx => dependentsOf_mem_lt hx) h

theorem schedulerStart_pending {streams : List (List Nat)} {t : Nat}
    (ht : t < streams.length) :
    (schedulerStart streams).pending.getD t 0 =
      ((streams.getD t []).length : Int) := by
  simp only [schedulerStart]
  rw [List.getD_eq_getElem?_getD, List.getElem?_map,
    List.getElem?_eq_getElem ht]
  simp only [Option.map_some', Option.getD_some]
  rw [List.getD_eq_getElem?_getD, List.getElem?_eq_getElem ht]
  rfl

theorem schedulerStart_inv (streams : List (List Nat)) :
    DispatchInv streams.length (schedulerStart streams) := by
  refine ⟨by simp [schedulerStart], ?_, ?_⟩
  · intro t ht
    have hpt := schedulerStart_pending ht
    have hcount : (schedulerStart streams).dispatched.count t =
        if ((schedulerStart streams).pending.getD t 0 == (0 : Int)) = true
        then 1 else 0 := by
      simp only [schedulerStart] at hpt ⊢
      rw [count_filter_eq, count_range_eq, if_pos ht]
    by_cases hz : (streams.getD t []).length = 0
    · right
      constructor
      · rw [hcount, if_pos (by rw [hpt, hz]; decide)]
      · rw [hpt, hz]
        simp
    · left
      have hne : ¬ (((schedulerStart streams).pending.getD t 0
          == (0 : Int)) = true) := by
        rw [hpt]
        intro hc
        have := beq_iff_eq.mp hc
        omega
      constructor
      · rw [hcount, if_neg hne]
      · rw [hpt]
        omega
  · intro t htn
    simp only [schedulerStart]
    rw [List.count_eq_zero]
    intro hmem
    have := List.mem_range.mp (List.mem_of_mem_filter hmem)
    omega

theorem runScheduler_inv (streams : List (List Nat)) (events : List Nat) :
    DispatchInv streams.length (runScheduler streams events) := by
  rw [runScheduler]
  induction events using List.reverseRecOn with
  | nil => exact schedulerStart_inv streams
  | append_singleton evs e ih =>
    rw [List.foldl_append, List.foldl_cons, List.foldl_nil]
    exact completeStream_inv ih

/-- C8: the scheduler never re-dispatches a stream.  For every stream graph
(pending counters starting at the length of each stream's dependencies
list, duplicate entries included) and every completion-event sequence in
which each stream id completes at most once, every stream id is pushed to
the dispatch queue at most once — even when a stream's dependencies list
mentions the same dependency stream more than once. -/
theorem claim8_no_redispatch (streams : List (List Nat)) (events : List Nat)
    (hwf : ∀ l ∈ streams, ∀ d ∈ l, d < streams.length)
    (hnodup : events.Nodup)
    (hev : ∀ s ∈ events, s < streams.length) :
    ∀ i, (runScheduler streams events).dispatched.count i ≤ 1 := by
  obtain ⟨-, hmid, hhigh⟩ := runScheduler_inv streams events
  intro i
  by_cases hi : i < streams.length
  · rcases hmid i hi with ⟨h0, -⟩ | ⟨h1, -⟩ <;> omega
  · rw [hhigh i (by omega)]
    omega

theorem claim8_witness :
    (∀ l ∈ ([[], [0, 0]] : List (List Nat)), ∀ d ∈ l,
      d < ([[], [0, 0]] : List (List Nat)).length) ∧
    ([0, 1] : List Nat).Nodup ∧
    (∀ s ∈ ([0, 1] : List Nat), s < ([[], [0, 0]] : List (List Nat)).length) ∧
    ∀ i, (runScheduler [[], [0, 0]] [0, 1]).dispatched.count i ≤ 1 :=
  ⟨by decide, by decide, by decide,
    claim8_no_redispatch [[], [0, 0]] [0, 1] (by decide) (by decide) (by decide)⟩

end RsBrain
